import Mathlib

/-!
Verification of the source-discovery core of cbmc-viewer (sourcet.py).

The Python module is shallowly embedded: paths are Lean Strings, Python
string operations are modelled by explicit functions over lists of
characters, external processes (the sloc line counter, make, find, the
symbol-table reader) are modelled as oracle parameters, and Python
exceptions are modelled with Except.
-/

namespace Sourcet

/-! ## Python string primitives -/

/-- Model of Python str.startswith: character-list prefix test. -/
def pyStartswith (s pre : String) : Bool :=
  pre.toList.isPrefixOf s.toList

/-- Model of the Python slice s[n:]: drop the first n characters. -/
def pyDrop (n : Nat) (s : String) : String :=
  String.mk (s.toList.drop n)

/-- Model of Python str.strip(): remove leading and trailing whitespace. -/
def pyStrip (s : String) : String :=
  String.mk (((s.toList.dropWhile Char.isWhitespace).reverse.dropWhile
    Char.isWhitespace).reverse)

/-- Model of Python str.split(c) for a single-character separator. -/
def splitChar (c : Char) : List Char → List (List Char)
  | [] => [[]]
  | x :: xs =>
    match splitChar c xs with
    | [] => [[]]
    | y :: ys => if x = c then [] :: y :: ys else (x :: y) :: ys

/-- Model of Python sep.join(parts) at the character-list level. -/
def joinSep (sep : List Char) : List (List Char) → List Char
  | [] => []
  | [x] => x
  | x :: y :: ys => x ++ sep ++ joinSep sep (y :: ys)

/-! ## Path normalization

Modelled from the spec: the PathNormalizer component (srcloct.py, not part
of the sources under verification) canonicalizes filesystem paths to
absolute form and normalized form; its behaviour is that of POSIX
os.path.normpath / os.path.abspath / os.path.join / os.path.basename,
with the process working directory passed explicitly. -/

/-- Number of leading path separators that POSIX normpath preserves:
one slash stays one, exactly two stay two, three or more become one. -/
def initialSlashes (cs : List Char) : Nat :=
  if cs.take 3 = ['/', '/', '/'] then 1
  else if cs.take 2 = ['/', '/'] then 2
  else if cs.take 1 = ['/'] then 1
  else 0

/-- Component-processing loop of POSIX normpath.  The accumulator holds the
already-processed components in reverse order.  Empty components and "."
are dropped; ".." pops the previous component except at the start of a
relative path or after an unpopped "..". -/
def normCompsRev (hasSlash : Bool) : List (List Char) → List (List Char) → List (List Char)
  | acc, [] => acc.reverse
  | acc, comp :: rest =>
    if comp = [] ∨ comp = ['.'] then
      normCompsRev hasSlash acc rest
    else if comp ≠ ['.', '.'] ∨ (hasSlash = false ∧ acc = []) ∨ acc.head? = some ['.', '.'] then
      normCompsRev hasSlash (comp :: acc) rest
    else
      match acc with
      | [] => normCompsRev hasSlash [] rest
      | _ :: t => normCompsRev hasSlash t rest

/-- Modelled from the spec: POSIX os.path.normpath over a character list. -/
def normList (cs : List Char) : List Char :=
  if cs = [] then ['.']
  else
    let n := initialSlashes cs
    let comps := normCompsRev (n != 0) [] (splitChar '/' cs)
    let res := List.replicate n '/' ++ joinSep ['/'] comps
    if res = [] then ['.'] else res

/-- Modelled from the spec: srcloct.normpath (PathNormalizer), the POSIX
path normalization used by the code via os.path.normpath. -/
def pyNormpath (s : String) : String :=
  String.mk (normList s.toList)

/-- Modelled from the spec: POSIX os.path.join restricted to two arguments,
as used by the code. -/
def pyJoin (a b : String) : String :=
  if pyStartswith b "/" then b
  else if a = "" ∨ a.toList.getLast? = some '/' then a ++ b
  else a ++ "/" ++ b

/-- Modelled from the spec: srcloct.abspath (PathNormalizer), canonicalizes
a path to absolute normalized form; the working directory of the process is
the explicit argument cwd. -/
def pyAbspath (cwd p : String) : String :=
  pyNormpath (if pyStartswith p "/" then p else pyJoin cwd p)

/-- Modelled from the spec: POSIX os.path.basename, the part of the path
after the last separator. -/
def pyBasename (p : String) : String :=
  String.mk ((splitChar '/' p.toList).getLastD [])

/-- Model of Python string comparison at the character-list level:
lexicographic by code point. -/
def listLe : List Char → List Char → Bool
  | [], _ => true
  | _ :: _, [] => false
  | a :: as, b :: bs =>
    if a < b then true
    else if b < a then false
    else listLe as bs

/-- Model of the comparison Python sorted uses on strings. -/
def pyStrLe (a b : String) : Bool :=
  listLe a.toList b.toList

/-- Model of Python sorted(set(l)) for strings: deduplicate, then sort in
ascending lexicographic (code point) order. -/
def pySortedSet (l : List String) : List String :=
  List.insertionSort (fun a b => pyStrLe a b = true) l.dedup

/-! ## The Source data model (sourcet.py, class Source) -/

/-- The validated source-set record: root, root-relative files, absolute
files, and optional line-of-code statistics (absent models a Python object
without the lines_of_code attribute). -/
structure Source where
  root : String
  files : List String
  all_files : List String
  lines_of_code : Option (List (String × Int))
deriving DecidableEq, Repr

/-- Python exceptions that escape the embedded code. -/
inductive PyError where
  | userWarning (msg : String)
  | osError
  | attributeError
deriving DecidableEq, Repr

/-- Outcome of one invocation of the external sloc tool via runt.run:
either a parsed JSON summary block, or one of the exceptions the code
handles (FileNotFoundError, OSError with errno 7, OSError with another
errno, subprocess.CalledProcessError). -/
inductive SlocOutcome where
  | summary (data : List (String × Int))
  | fileNotFoundError
  | argumentListTooLong
  | otherOSError
  | calledProcessError
deriving DecidableEq, Repr

/-- A tool oracle maps a command line and a working directory to the
outcome of running the sloc tool there. -/
def SlocTool : Type := List String → String → SlocOutcome

/-- Model of Python dict lookup loc.get(key, 0): the value of the unique
binding of the key, or 0 when the key is absent. -/
def dictGet (d : List (String × Int)) (k : String) : Int :=
  match d with
  | [] => 0
  | kv :: rest => if kv.1 = k then kv.2 else dictGet rest k

/-- Model of Python dict assignment d[k] = v: replace the value in place
if the key is present, otherwise append the binding. -/
def dictSet (d : List (String × Int)) (k : String) (v : Int) : List (String × Int) :=
  if d.any (fun kv => kv.1 == k) then
    d.map (fun kv => if kv.1 = k then (k, v) else kv)
  else d ++ [(k, v)]

/-- Accumulation of one sloc summary block into the running totals:
for key, val in data.items(): loc[key] = int(val) + loc.get(key, 0). -/
def slocAccum (loc : List (String × Int)) (data : List (String × Int)) : List (String × Int) :=
  data.foldl (fun l kv => dictSet l kv.1 (kv.2 + dictGet l kv.1)) loc

/-- Command line built by Source.sloc for one batch of files. -/
def slocCommand (files : List String) : List String :=
  "sloc" :: "-f" :: "json" :: files

/-- The while loop of Source.sloc: take batches of at most 100 files,
run the tool on each, and accumulate the summary counts.  A tolerated
tool failure yields no statistics; an OSError with errno other than 7 is
re-raised. -/
def slocLoop (tool : SlocTool) (root : String) :
    List String → List (String × Int) → Except PyError (Option (List (String × Int)))
  | [], loc => .ok (some loc)
  | s :: rest, loc =>
    match tool (slocCommand ((s :: rest).take 100)) root with
    | .summary data => slocLoop tool root ((s :: rest).drop 100) (slocAccum loc data)
    | .fileNotFoundError => .ok none
    | .argumentListTooLong => .ok none
    | .otherOSError => .error .osError
    | .calledProcessError => .ok none
termination_by l _ => l.length
decreasing_by simp [List.length_drop]; omega

/-- Source.sloc: run sloc on a list of files under root. -/
def Source.sloc (tool : SlocTool) (files : List String) (root : String) :
    Except PyError (Option (List (String × Int))) :=
  slocLoop tool root files []

/-- Source.__init__: normalize the root, deduplicate and sort the
absolute-normalized file list, derive the root-relative file list, and
optionally attach the sloc statistics (a falsy result, None or an empty
dict, leaves the attribute unset). -/
def Source.init (tool : SlocTool) (cwd : String) (root : String)
    (files : List String) (slocFlag : Bool) : Except PyError Source :=
  let rootV := if root = "" then "" else pyAbspath cwd root
  let allFiles := pySortedSet (files.map (pyAbspath cwd))
  let relFiles := (allFiles.filter (fun path => pyStartswith path rootV)).map
    (fun path => pyNormpath (pyDrop (rootV.length + 1) path))
  if slocFlag then
    match Source.sloc tool relFiles rootV with
    | .error e => .error e
    | .ok locResult =>
      .ok ⟨rootV, relFiles, allFiles,
        match locResult with
        | some loc => if loc = [] then none else some loc
        | none => none⟩
  else
    .ok ⟨rootV, relFiles, allFiles, none⟩

/-- List of batches that the Source.sloc while loop processes: successive
chunks of at most 100 files. -/
def chunkList : List String → List (List String)
  | [] => []
  | s :: rest => ((s :: rest).take 100) :: chunkList ((s :: rest).drop 100)
termination_by l => l.length
decreasing_by simp [List.length_drop]; omega

/-! ## SourceFromJson (merge of serialized source sets) -/

/-- One parsed viewer-source JSON document, as produced by the external
parse utility from the tagged serialization of a Source. -/
structure SourceDoc where
  root : String
  files : List String
  all_files : List String
  lines_of_code : Option (List (String × Int))
deriving DecidableEq, Repr

/-- The record a Source serializes to (the payload of the tagged JSON
document); deserializing it again yields exactly this document. -/
def Source.toDoc (s : Source) : SourceDoc :=
  ⟨s.root, s.files, s.all_files, s.lines_of_code⟩

/-- ASCII apostrophe, the quote Python repr puts around strings. -/
def squote : Char := Char.ofNat 39

/-- Display of a Python list of strings, as interpolated into the merge
error message by '...{}'.format(roots). -/
def pyReprStrList (l : List String) : List Char :=
  '[' :: (joinSep [',', ' '] (l.map (fun r => squote :: (r.toList ++ [squote]))) ++ [']'])

/-- Message of the UserWarning raised by merge on conflicting roots. -/
def mergeErrMsg (roots : List String) : String :=
  String.mk ("Source lists have different roots: ".toList ++ pyReprStrList roots)

/-- Inner function merge of SourceFromJson.__init__: collect the distinct
roots and the deduplicated union of the all_files lists; fail when the
number of distinct roots is not one.  Python builds both collections as
sets with unspecified iteration order; the model determinizes them with
dedup (first occurrence kept). -/
def mergeSources (docs : List SourceDoc) : Except PyError (String × List String) :=
  let roots := (docs.map SourceDoc.root).dedup
  let files := (docs.map SourceDoc.all_files).flatten.dedup
  if roots.length ≠ 1 then .error (.userWarning (mergeErrMsg roots))
  else .ok (roots.headD "", files)

/-- SourceFromJson.__init__ over already-parsed documents (parsing and
schema validation of each document are done by the external utilities). -/
def SourceFromJson (tool : SlocTool) (cwd : String) (docs : List SourceDoc)
    (slocFlag : Bool) : Except PyError Source :=
  if docs = [] then .error (.userWarning "No sources")
  else
    match mergeSources docs with
    | .error e => .error e
    | .ok rootFiles => Source.init tool cwd rootFiles.1 rootFiles.2 slocFlag

/-! ## SourceFromMake: extraction of source names from preprocessor output -/

/-- Model of re.search applied with pattern "(.*)" and group(1): the text
between the first and the last double quote of the line; none models the
AttributeError raised by group(1) when the line has fewer than two
quotes. -/
def findQuoted (line : String) : Option String :=
  let parts := splitChar '"' line.toList
  if parts.length ≥ 3 then some (String.mk (joinSep ['"'] parts.tail.dropLast))
  else none

/-- Names of the synthetic pseudo-sources the preprocessor emits. -/
def syntheticMarkers : List String :=
  ["<built-in>", "<command-line>", "<command line>"]

/-- SourceFromMake.extract_source_filenames: keep the linemarker lines
(stripped line begins with hash and space), extract the quoted filename of
each, drop synthetic markers, resolve against the build directory,
normalize, deduplicate and sort.  The result is none when a kept line has
no quoted filename (the Python code would raise AttributeError there). -/
def extract_source_filenames (output : List String) (build : String) :
    Option (List String) :=
  let linemarkers := output.filter (fun line => pyStartswith (pyStrip line) "# ")
  match linemarkers.mapM findQuoted with
  | none => none
  | some filenames =>
    let kept := filenames.filter
      (fun name => !(syntheticMarkers.contains (pyBasename name)))
    some (pySortedSet ((kept.map (fun name => pyJoin build name)).map pyNormpath))

/-! ## The dispatcher make_source -/

/-- Methods for listing source files (enum Sources). -/
inductive Sources where
  | FIND
  | WALK
  | MAKE
  | GOTO
deriving DecidableEq, Repr

/-- SourceFromGoto.__init__: the file list read from the goto symbol table
is supplied by the external symbol-table reader (oracle symbolFiles,
applied to the goto binary and the working directory), sorted, and handed
to the base constructor with srcdir as root. -/
def SourceFromGoto (tool : SlocTool) (cwd : String)
    (symbolFiles : String → String → List String)
    (goto : Option String) (wkdir srcdir : String) (slocFlag : Bool) :
    Except PyError Source :=
  match goto with
  | none => .error (.userWarning "No goto program")
  | some g =>
    if g = "" then .error (.userWarning "No goto program")
    else Source.init tool cwd srcdir
      (List.insertionSort (fun a b => pyStrLe a b = true) (symbolFiles g wkdir)) slocFlag

/-- SourceFromMake.__init__: the preprocessed output lines captured from
the make build are supplied by an oracle (the make run, the -o filename
extraction and the reading of the output files are external process
effects); the source names are then extracted from those lines. -/
def SourceFromMake (tool : SlocTool) (cwd : String)
    (preprocessedOutput : String → List String)
    (root build : String) (slocFlag : Bool) : Except PyError Source :=
  match extract_source_filenames (preprocessedOutput build) build with
  | none => .error .attributeError
  | some files => Source.init tool cwd root files slocFlag

/-- SourceFromFind.__init__ with the external find run and the regular
expression based selection collapsed into an oracle from (root, exclude,
extensions) to the selected absolute file list. -/
def SourceFromFind (tool : SlocTool) (cwd : String)
    (foundFiles : String → Option String → Option String → List String)
    (root : String) (exclude extensions : Option String) (slocFlag : Bool) :
    Except PyError Source :=
  Source.init tool cwd root (foundFiles root exclude extensions) slocFlag

/-- SourceFromWalk.__init__ with the directory walk and the selection
collapsed into an oracle, as for SourceFromFind. -/
def SourceFromWalk (tool : SlocTool) (cwd : String)
    (walkedFiles : String → Option String → Option String → List String)
    (root : String) (exclude extensions : Option String) (slocFlag : Bool) :
    Except PyError Source :=
  Source.init tool cwd root (walkedFiles root exclude extensions) slocFlag

/-- Interpretation of a truthy optional string argument: Python treats
None and the empty string as absent. -/
def truthy : Option String → Option String
  | none => none
  | some s => if s = "" then none else some s

/-- make_source: the implementation of make-source.  The viewer-source
documents are already parsed; source_method is none when the configured
method is none of the four known strategies.  Each strategy's external
discovery is an oracle argument. -/
def make_source (tool : SlocTool) (cwd : String)
    (symbolFiles : String → String → List String)
    (preprocessedOutput : String → List String)
    (foundFiles walkedFiles : String → Option String → Option String → List String)
    (viewer_source : List SourceDoc) (goto : Option String)
    (source_method : Option Sources) (srcdir wkdir : Option String)
    (exclude extensions : Option String) : Except PyError Source :=
  let wkdirA := (truthy wkdir).map (pyAbspath cwd)
  let srcdirA := (truthy srcdir).map (pyAbspath cwd)
  if viewer_source ≠ [] then
    SourceFromJson tool cwd viewer_source false
  else if source_method = some Sources.GOTO then
    match goto, wkdirA, srcdirA with
    | some g, some w, some sd => SourceFromGoto tool cwd symbolFiles (some g) w sd false
    | _, _, _ => .error (.userWarning "make-source: expected --goto and --srcdir and --wkdir")
  else if source_method = some Sources.MAKE then
    match srcdirA, wkdirA with
    | some sd, some w => SourceFromMake tool cwd preprocessedOutput sd w true
    | _, _ => .error (.userWarning "make-source: expected --srcdir and --wkdir")
  else if source_method = some Sources.FIND then
    match srcdirA with
    | some sd => SourceFromFind tool cwd foundFiles sd exclude extensions false
    | none => .error (.userWarning "make-source: expected --srcdir")
  else if source_method = some Sources.WALK then
    match srcdirA with
    | some sd => SourceFromWalk tool cwd walkedFiles sd exclude extensions false
    | none => .error (.userWarning "make-source: expected --srcdir")
  else
    Source.init tool cwd "" [] false

/-! ## Helper lemmas: the string order and sorted deduplicated lists -/

theorem toList_mk (l : List Char) : (String.mk l).toList = l := rfl

theorem listLe_total : ∀ a b, listLe a b = true ∨ listLe b a = true := by
  intro a
  induction a with
  | nil => intro b; left; rfl
  | cons x xs ih =>
    intro b
    cases b with
    | nil => right; rfl
    | cons y ys =>
      by_cases hxy : x < y
      · left
        simp [listLe, hxy]
      · by_cases hyx : y < x
        · right
          simp [listLe, hyx]
        · rcases ih ys with h | h
          · left
            simp [listLe, hxy, hyx, h]
          · right
            simp [listLe, hxy, hyx, h]

theorem listLe_trans : ∀ a b c, listLe a b = true → listLe b c = true → listLe a c = true := by
  intro a
  induction a with
  | nil => intro b c _ _; rfl
  | cons x xs ih =>
    intro b c hab hbc
    cases b with
    | nil => simp [listLe] at hab
    | cons y ys =>
      cases c with
      | nil => simp [listLe] at hbc
      | cons z zs =>
        rcases lt_trichotomy x y with h1 | h1 | h1
        · rcases lt_trichotomy y z with h2 | h2 | h2
          · simp [listLe, lt_trans h1 h2]
          · subst h2
            simp [listLe, h1]
          · rw [listLe, if_neg (asymm h2), if_pos h2] at hbc
            exact absurd hbc (by simp)
        · subst h1
          rw [listLe, if_neg (lt_irrefl x), if_neg (lt_irrefl x)] at hab
          rcases lt_trichotomy x z with h2 | h2 | h2
          · simp [listLe, h2]
          · subst h2
            rw [listLe, if_neg (lt_irrefl x), if_neg (lt_irrefl x)] at hbc ⊢
            exact ih ys zs hab hbc
          · rw [listLe, if_neg (asymm h2), if_pos h2] at hbc
            exact absurd hbc (by simp)
        · rw [listLe, if_neg (asymm h1), if_pos h1] at hab
          exact absurd hab (by simp)

theorem listLe_antisymm : ∀ a b, listLe a b = true → listLe b a = true → a = b := by
  intro a
  induction a with
  | nil =>
    intro b _ hba
    cases b with
    | nil => rfl
    | cons y ys => simp [listLe] at hba
  | cons x xs ih =>
    intro b hab hba
    cases b with
    | nil => simp [listLe] at hab
    | cons y ys =>
      rcases lt_trichotomy x y with h1 | h1 | h1
      · rw [listLe, if_neg (asymm h1), if_pos h1] at hba
        exact absurd hba (by simp)
      · subst h1
        rw [listLe, if_neg (lt_irrefl x), if_neg (lt_irrefl x)] at hab hba
        rw [ih ys hab hba]
      · rw [listLe, if_neg (asymm h1), if_pos h1] at hab
        exact absurd hab (by simp)

instance : IsTotal String (fun a b => pyStrLe a b = true) :=
  ⟨fun a b => listLe_total a.toList b.toList⟩

instance : IsTrans String (fun a b => pyStrLe a b = true) :=
  ⟨fun a b c => listLe_trans a.toList b.toList c.toList⟩

theorem pyStrLe_antisymm {a b : String} (hab : pyStrLe a b = true)
    (hba : pyStrLe b a = true) : a = b := by
  have := listLe_antisymm a.toList b.toList hab hba
  exact String.toList_inj.mp this

theorem pySortedSet_sorted (l : List String) :
    (pySortedSet l).Sorted (fun a b => pyStrLe a b = true) :=
  List.sorted_insertionSort _ _

theorem pySortedSet_nodup (l : List String) : (pySortedSet l).Nodup :=
  ((List.perm_insertionSort _ _).nodup_iff).mpr l.nodup_dedup

theorem mem_pySortedSet {a : String} {l : List String} :
    a ∈ pySortedSet l ↔ a ∈ l := by
  unfold pySortedSet
  rw [List.mem_insertionSort, List.mem_dedup]

theorem pySortedSet_sorted_strict (l : List String) :
    (pySortedSet l).Sorted (fun a b => pyStrLe a b = true ∧ a ≠ b) :=
  List.Pairwise.and (pySortedSet_sorted l) (pySortedSet_nodup l)

theorem pySortedSet_eq_self {l : List String}
    (hs : l.Sorted (fun a b => pyStrLe a b = true))
    (hn : l.Nodup) : pySortedSet l = l := by
  unfold pySortedSet
  rw [List.dedup_eq_self.mpr hn, hs.insertionSort_eq]

/-! ## Helper lemmas: the statistics dictionary -/

/-- Total of the values a summary block contributes to a given key. -/
def entrySum (data : List (String × Int)) (k : String) : Int :=
  ((data.filter (fun kv => kv.1 == k)).map Prod.snd).sum

theorem dictGet_mapSet (d : List (String × Int)) (k : String) (v : Int) :
    dictGet (d.map (fun kv => if kv.1 = k then (k, v) else kv)) k
      = if d.any (fun kv => kv.1 == k) then v else 0 := by
  induction d with
  | nil => simp [dictGet]
  | cons p d ih =>
    by_cases hp : p.1 = k
    · simp [dictGet, hp]
    · rcases Bool.eq_false_or_eq_true (d.any fun kv => kv.1 == k) with hd | hd <;>
        simp [dictGet, hp, ih, hd, beq_iff_eq]

theorem dictGet_mapSet_ne (d : List (String × Int)) {k k' : String} (v : Int)
    (hne : k' ≠ k) :
    dictGet (d.map (fun kv => if kv.1 = k then (k, v) else kv)) k' = dictGet d k' := by
  induction d with
  | nil => rfl
  | cons p d ih =>
    by_cases hp : p.1 = k
    · have : p.1 ≠ k' := by rw [hp]; exact fun h => hne h.symm
      simp [dictGet, hp, ih, Ne.symm hne, this]
    · simp [dictGet, hp, ih]

theorem dictGet_appendOne (d : List (String × Int)) (k : String) (v : Int) :
    dictGet (d ++ [(k, v)]) k = if d.any (fun kv => kv.1 == k) then dictGet d k else v := by
  induction d with
  | nil => simp [dictGet]
  | cons p d ih =>
    by_cases hp : p.1 = k
    · simp [dictGet, hp]
    · rcases Bool.eq_false_or_eq_true (d.any fun kv => kv.1 == k) with hd | hd <;>
        simp [dictGet, hp, ih, hd, beq_iff_eq]

theorem dictGet_appendOne_ne (d : List (String × Int)) {k k' : String} (v : Int)
    (hne : k' ≠ k) : dictGet (d ++ [(k, v)]) k' = dictGet d k' := by
  induction d with
  | nil => simp [dictGet, Ne.symm hne]
  | cons p d ih =>
    by_cases hp : p.1 = k' <;> simp [dictGet, hp, ih]

theorem dictGet_dictSet_self (d : List (String × Int)) (k : String) (v : Int) :
    dictGet (dictSet d k v) k = v := by
  unfold dictSet
  by_cases h : d.any (fun kv => kv.1 == k)
  · simp [h, dictGet_mapSet]
  · simp [h, dictGet_appendOne]

theorem dictGet_dictSet_ne (d : List (String × Int)) {k k' : String} (v : Int)
    (hne : k' ≠ k) : dictGet (dictSet d k v) k' = dictGet d k' := by
  unfold dictSet
  by_cases h : d.any (fun kv => kv.1 == k)
  · simp [h, dictGet_mapSet_ne _ _ hne]
  · simp [h, dictGet_appendOne_ne _ _ hne]

theorem slocAccum_cons (loc : List (String × Int)) (kv : String × Int)
    (data : List (String × Int)) :
    slocAccum loc (kv :: data) = slocAccum (dictSet loc kv.1 (kv.2 + dictGet loc kv.1)) data := rfl

theorem slocAccum_get (k : String) :
    ∀ (data loc : List (String × Int)),
      dictGet (slocAccum loc data) k = dictGet loc k + entrySum data k := by
  intro data
  induction data with
  | nil => intro loc; simp [slocAccum, entrySum]
  | cons kv data ih =>
    intro loc
    rw [slocAccum_cons, ih]
    by_cases hk : kv.1 = k
    · rw [hk, dictGet_dictSet_self]
      have he : entrySum (kv :: data) k = kv.2 + entrySum data k := by
        simp [entrySum, List.filter_cons, hk]
      rw [he]
      omega
    · rw [dictGet_dictSet_ne _ _ (fun h => hk h.symm)]
      have he : entrySum (kv :: data) k = entrySum data k := by
        simp [entrySum, List.filter_cons, beq_iff_eq, hk]
      rw [he]

/-! ## Helper lemmas: batching in Source.sloc -/

/-- Outcomes of the sloc tool that the code tolerates by returning no
statistics: missing binary, argument list too long, nonzero exit. -/
def SlocOutcome.tolerated (o : SlocOutcome) : Prop :=
  o = .fileNotFoundError ∨ o = .argumentListTooLong ∨ o = .calledProcessError

instance (o : SlocOutcome) : Decidable o.tolerated := by
  unfold SlocOutcome.tolerated
  infer_instance

theorem chunkList_nil : chunkList [] = [] := by
  rw [chunkList]

theorem chunkList_cons (s : String) (rest : List String) :
    chunkList (s :: rest) = (s :: rest).take 100 :: chunkList ((s :: rest).drop 100) := by
  rw [chunkList]

theorem chunkList_flatten (l : List String) : (chunkList l).flatten = l := by
  induction l using chunkList.induct with
  | case1 => simp [chunkList_nil]
  | case2 s rest ih =>
    rw [chunkList_cons, List.flatten_cons, ih, List.take_append_drop]

theorem chunkList_le_100 (l : List String) : ∀ c ∈ chunkList l, c.length ≤ 100 := by
  induction l using chunkList.induct with
  | case1 => simp [chunkList_nil]
  | case2 s rest ih =>
    rw [chunkList_cons]
    intro c hc
    rcases List.mem_cons.mp hc with hc | hc
    · rw [hc]
      simp only [List.length_take]
      omega
    · exact ih c hc

theorem chunkList_ne_nil {l : List String} (h : l ≠ []) : chunkList l ≠ [] := by
  match l with
  | [] => exact absurd rfl h
  | s :: rest => rw [chunkList_cons]; exact List.cons_ne_nil _ _

theorem chunkList_two {l : List String} (h : 100 < l.length) :
    2 ≤ (chunkList l).length := by
  match l with
  | [] => simp at h
  | s :: rest =>
    rw [chunkList_cons, List.length_cons]
    have hd : (s :: rest).drop 100 ≠ [] := by
      intro hnil
      have hlen := congrArg List.length hnil
      simp only [List.length_drop, List.length_nil] at hlen
      omega
    have := List.length_pos.mpr (chunkList_ne_nil hd)
    omega

theorem slocLoop_nil (tool : SlocTool) (root : String) (loc : List (String × Int)) :
    slocLoop tool root [] loc = .ok (some loc) := by
  rw [slocLoop]

theorem slocLoop_summary (tool : SlocTool) (root : String)
    (f : List String → List (String × Int))
    (htool : ∀ chunk, tool (slocCommand chunk) root = .summary (f chunk)) :
    ∀ (n : Nat) (sources : List String), sources.length ≤ n → ∀ loc,
      ∃ m, slocLoop tool root sources loc = .ok (some m) ∧
        ∀ k, dictGet m k =
          dictGet loc k + ((chunkList sources).map (fun c => entrySum (f c) k)).sum := by
  intro n
  induction n with
  | zero =>
    intro sources hlen loc
    have hnil : sources = [] := List.eq_nil_of_length_eq_zero (Nat.le_zero.mp hlen)
    subst hnil
    exact ⟨loc, slocLoop_nil tool root loc, by simp [chunkList_nil]⟩
  | succ n ih =>
    intro sources hlen loc
    match sources with
    | [] => exact ⟨loc, slocLoop_nil tool root loc, by simp [chunkList_nil]⟩
    | s :: rest =>
      have hdrop : ((s :: rest).drop 100).length ≤ n := by
        simp only [List.length_drop, List.length_cons]
        simp only [List.length_cons] at hlen
        omega
      obtain ⟨m, hm, hk⟩ := ih ((s :: rest).drop 100) hdrop
        (slocAccum loc (f ((s :: rest).take 100)))
      refine ⟨m, ?_, ?_⟩
      · rw [slocLoop, htool]
        exact hm
      · intro k
        rw [hk k, slocAccum_get, chunkList_cons]
        simp only [List.map_cons, List.sum_cons]
        omega

theorem slocLoop_failure (tool : SlocTool) (root : String) :
    ∀ (n : Nat) (sources : List String), sources.length ≤ n →
    ∀ (pre : List (List String)) (bad : List String) (post : List (List String)),
      chunkList sources = pre ++ bad :: post →
      (∀ c ∈ pre, ∃ d, tool (slocCommand c) root = .summary d) →
      (tool (slocCommand bad) root).tolerated →
      ∀ loc, slocLoop tool root sources loc = .ok none := by
  intro n
  induction n with
  | zero =>
    intro sources hlen pre bad post hch hpre hbad loc
    have hnil : sources = [] := List.eq_nil_of_length_eq_zero (Nat.le_zero.mp hlen)
    subst hnil
    rw [chunkList_nil] at hch
    exact absurd hch.symm (List.append_ne_nil_of_right_ne_nil _ (List.cons_ne_nil _ _))
  | succ n ih =>
    intro sources hlen pre bad post hch hpre hbad loc
    match sources with
    | [] =>
      rw [chunkList_nil] at hch
      exact absurd hch.symm (List.append_ne_nil_of_right_ne_nil _ (List.cons_ne_nil _ _))
    | s :: rest =>
      rw [chunkList_cons] at hch
      have hdrop : ((s :: rest).drop 100).length ≤ n := by
        simp only [List.length_drop, List.length_cons]
        simp only [List.length_cons] at hlen
        omega
      cases pre with
      | nil =>
        simp only [List.nil_append, List.cons.injEq] at hch
        obtain ⟨htake, -⟩ := hch
        subst htake
        rw [slocLoop]
        rcases hbad with hb | hb | hb <;> rw [hb]
      | cons p pre' =>
        simp only [List.cons_append, List.cons.injEq] at hch
        obtain ⟨hp, hrest⟩ := hch
        subst hp
        obtain ⟨d, hd⟩ := hpre _ (List.mem_cons_self _ pre')
        rw [slocLoop, hd]
        exact ih ((s :: rest).drop 100) hdrop pre' bad post hrest
          (fun c hc => hpre c (List.mem_cons_of_mem _ hc)) hbad _

/-! ## Helper lemmas: the fields produced by Source.__init__ -/

theorem init_ok_fields {tool : SlocTool} {cwd root : String} {files : List String}
    {slocFlag : Bool} {s : Source}
    (h : Source.init tool cwd root files slocFlag = .ok s) :
    s.root = (if root = "" then "" else pyAbspath cwd root)
    ∧ s.all_files = pySortedSet (files.map (pyAbspath cwd))
    ∧ s.files = (s.all_files.filter (fun p => pyStartswith p s.root)).map
        (fun p => pyNormpath (pyDrop (s.root.length + 1) p)) := by
  unfold Source.init at h
  cases slocFlag with
  | false =>
    simp only [Bool.false_eq_true, if_false, Except.ok.injEq] at h
    subst h
    exact ⟨rfl, rfl, rfl⟩
  | true =>
    simp only [if_true] at h
    split at h
    · exact absurd h (by simp)
    · simp only [Except.ok.injEq] at h
      subst h
      exact ⟨rfl, rfl, rfl⟩

/-! ## Claims about the line counter (C3, C5, C8) -/

theorem sloc_const_tolerated {tool : SlocTool} {o : SlocOutcome} (hto : o.tolerated)
    (htool : ∀ cmd dir, tool cmd dir = o) (files : List String) (root : String) :
    Source.sloc tool files root = .ok (if files = [] then some [] else none) := by
  cases files with
  | nil => simp [Source.sloc, slocLoop_nil]
  | cons f fs =>
    rw [Source.sloc, slocLoop, htool]
    rcases hto with h | h | h <;> rw [h] <;> simp

/-- C3: when the counting tool binary is not found, or the OS reports the
argument list too long, or the tool exits nonzero, Source.sloc returns no
statistics (None) and the enclosing SourceSet construction still succeeds,
producing a Source without the lines_of_code field. -/
theorem sloc_failure_degrades_gracefully (tool : SlocTool) (cwd root : String)
    (files : List String) (o : SlocOutcome) (hto : o.tolerated)
    (htool : ∀ cmd dir, tool cmd dir = o) :
    (∃ s, Source.init tool cwd root files true = .ok s ∧ s.lines_of_code = none)
    ∧ (∀ fs r, fs ≠ [] → Source.sloc tool fs r = .ok none) := by
  constructor
  · have key : ∀ (fs : List String) (r : String), ∃ v,
        Source.sloc tool fs r = .ok v ∧
          (match v with
            | some loc => if loc = [] then (none : Option (List (String × Int))) else some loc
            | none => none) = none := by
      intro fs r
      rcases fs with - | ⟨f, fs⟩
      · exact ⟨some [], slocLoop_nil tool r [], rfl⟩
      · refine ⟨none, ?_, rfl⟩
        rw [Source.sloc, slocLoop, htool]
        rcases hto with hcase | hcase | hcase <;> rw [hcase]
    unfold Source.init
    rw [if_pos rfl]
    obtain ⟨v, hv, hnone⟩ := key _ _
    rw [hv]
    exact ⟨_, rfl, hnone⟩
  · intro fs r hne
    rw [sloc_const_tolerated hto htool, if_neg hne]

/-- C5: Source.sloc partitions the file list into successive chunks of at
most 100 paths (their concatenation is the original list), invokes the
tool once per chunk, and when every invocation succeeds the resulting
count for every key is the sum of that key's count over the chunk
invocations; more than 100 files give at least two chunks. -/
theorem sloc_batches_and_sums (tool : SlocTool) (root : String) (files : List String)
    (f : List String → List (String × Int))
    (htool : ∀ chunk, tool (slocCommand chunk) root = .summary (f chunk)) :
    (∃ m, Source.sloc tool files root = .ok (some m) ∧
      ∀ k, dictGet m k = ((chunkList files).map (fun c => entrySum (f c) k)).sum)
    ∧ (chunkList files).flatten = files
    ∧ (∀ c ∈ chunkList files, c.length ≤ 100)
    ∧ (100 < files.length → 2 ≤ (chunkList files).length) := by
  refine ⟨?_, chunkList_flatten files, chunkList_le_100 files, fun h => chunkList_two h⟩
  obtain ⟨m, hm, hk⟩ := slocLoop_summary tool root f htool files.length files le_rfl []
  refine ⟨m, hm, fun k => ?_⟩
  have := hk k
  simpa [dictGet] using this

/-- C8: Source.sloc never returns partial statistics: if the tool fails
with a tolerated failure on some chunk after succeeding on all earlier
chunks, the whole result is None and the counts accumulated from the
earlier chunks are discarded. -/
theorem sloc_all_or_nothing (tool : SlocTool) (root : String) (files : List String)
    (pre : List (List String)) (bad : List String) (post : List (List String))
    (hch : chunkList files = pre ++ bad :: post)
    (hpre : ∀ c ∈ pre, ∃ d, tool (slocCommand c) root = .summary d)
    (hbad : (tool (slocCommand bad) root).tolerated) :
    Source.sloc tool files root = .ok none :=
  slocLoop_failure tool root files.length files le_rfl pre bad post hch hpre hbad []

/-! ## Claims about ordering, the empty source set, and merge (C10, C7, C4) -/

/-- C10: after every construction path, all_files is duplicate-free and
sorted in ascending lexicographic order, and files is obtained from the
members of all_files that pass the root-prefix test, in that same relative
order (the selected members form a sublist of all_files). -/
theorem all_files_sorted_invariant {tool : SlocTool} {cwd root : String}
    {files : List String} {slocFlag : Bool} {s : Source}
    (h : Source.init tool cwd root files slocFlag = .ok s) :
    s.all_files.Nodup ∧ s.all_files.Sorted (fun a b => pyStrLe a b = true)
    ∧ s.all_files.Sorted (fun a b => pyStrLe a b = true ∧ a ≠ b)
    ∧ (s.all_files.filter (fun p => pyStartswith p s.root)).Sublist s.all_files
    ∧ s.files = (s.all_files.filter (fun p => pyStartswith p s.root)).map
        (fun p => pyNormpath (pyDrop (s.root.length + 1) p)) := by
  obtain ⟨-, hall, hfiles⟩ := init_ok_fields h
  rw [hall] at hfiles ⊢
  exact ⟨pySortedSet_nodup _, pySortedSet_sorted _, pySortedSet_sorted_strict _,
    List.filter_sublist _, hfiles⟩

/-- C7: constructing a Source with no root and no files yields the valid
empty SourceSet (empty root, files and all_files), and make_source with no
viewer-source documents and no recognized strategy returns this empty
SourceSet rather than failing. -/
theorem empty_source_and_dispatch_default (tool : SlocTool) (cwd : String)
    (symbolFiles : String → String → List String)
    (preprocessedOutput : String → List String)
    (foundFiles walkedFiles : String → Option String → Option String → List String)
    (goto : Option String) (srcdir wkdir : Option String)
    (exclude extensions : Option String) :
    Source.init tool cwd "" [] false = .ok ⟨"", [], [], none⟩
    ∧ make_source tool cwd symbolFiles preprocessedOutput foundFiles walkedFiles
        [] goto none srcdir wkdir exclude extensions = .ok ⟨"", [], [], none⟩ :=
  ⟨rfl, rfl⟩

theorem infix_joinSep (sep : List Char) :
    ∀ (parts : List (List Char)) (x : List Char), x ∈ parts →
      ∃ u v, u ++ x ++ v = joinSep sep parts := by
  intro parts
  induction parts with
  | nil => intro x hx; simp at hx
  | cons p ps ih =>
    intro x hx
    rcases List.mem_cons.mp hx with hx | hx
    · subst hx
      cases ps with
      | nil => exact ⟨[], [], by simp [joinSep]⟩
      | cons q qs => exact ⟨[], sep ++ joinSep sep (q :: qs), by simp [joinSep]⟩
    · cases ps with
      | nil => simp at hx
      | cons q qs =>
        obtain ⟨u, v, huv⟩ := ih x hx
        refine ⟨p ++ sep ++ u, v, ?_⟩
        rw [joinSep, ← huv]
        simp [List.append_assoc]

/-- C4: merging a non-empty collection of source documents fails with a
UserWarning whose message contains every root (quoted, as Python displays
the list of roots) whenever more than one distinct root occurs, and with
exactly one distinct root it returns that root paired with the
deduplicated union of the documents' all_files lists. -/
theorem merge_roots_behaviour (docs : List SourceDoc) (hne : docs ≠ []) :
    (1 < ((docs.map SourceDoc.root).dedup).length →
      ∃ msg, mergeSources docs = .error (.userWarning msg) ∧
        ∀ r ∈ docs.map SourceDoc.root,
          ∃ u v, u ++ (squote :: (r.toList ++ [squote])) ++ v = msg.toList)
    ∧ (∀ r0, (docs.map SourceDoc.root).dedup = [r0] →
      ∃ u, mergeSources docs = .ok (r0, u) ∧ u.Nodup ∧
        ∀ x, (x ∈ u ↔ ∃ d ∈ docs, x ∈ d.all_files)) := by
  constructor
  · intro hgt
    refine ⟨mergeErrMsg ((docs.map SourceDoc.root).dedup), ?_, ?_⟩
    · unfold mergeSources
      rw [if_pos (by omega)]
    · intro r hr
      have hmem : (squote :: (r.toList ++ [squote]))
          ∈ ((docs.map SourceDoc.root).dedup).map (fun t => squote :: (t.toList ++ [squote])) :=
        List.mem_map_of_mem _ (List.mem_dedup.mpr hr)
      obtain ⟨u, v, huv⟩ := infix_joinSep [',', ' '] _ _ hmem
      refine ⟨("Source lists have different roots: ".toList ++ ['[']) ++ u, v ++ [']'], ?_⟩
      unfold mergeErrMsg pyReprStrList
      rw [toList_mk, ← huv]
      simp [List.append_assoc]
  · intro r0 h1
    unfold mergeSources
    rw [h1]
    rw [if_neg (by simp)]
    refine ⟨_, rfl, List.nodup_dedup _, fun x => ?_⟩
    simp [List.mem_dedup, List.mem_flatten, List.mem_map]

/-! ## Helper lemmas: splitting and joining on the separator -/

theorem splitChar_ne_nil (c : Char) (cs : List Char) : splitChar c cs ≠ [] := by
  cases cs with
  | nil => simp [splitChar]
  | cons x xs =>
    rw [splitChar]
    rcases hs : splitChar c xs with - | ⟨y, ys⟩
    · simp
    · by_cases hx : x = c <;> simp [hx]

theorem not_mem_splitChar (c : Char) :
    ∀ (cs : List Char), ∀ comp ∈ splitChar c cs, c ∉ comp := by
  intro cs
  induction cs with
  | nil =>
    intro comp hc
    simp [splitChar] at hc
    simp [hc]
  | cons x xs ih =>
    intro comp hc
    rcases hs : splitChar c xs with - | ⟨y, ys⟩
    · exact absurd hs (splitChar_ne_nil c xs)
    · rw [splitChar, hs] at hc
      by_cases hx : x = c
      · simp only [hx, if_true] at hc
        rcases List.mem_cons.mp hc with h | h
        · simp [h]
        · exact ih comp (hs ▸ h)
      · simp only [if_neg hx] at hc
        rcases List.mem_cons.mp hc with h | h
        · subst h
          intro hmem
          rcases List.mem_cons.mp hmem with h | h
          · exact hx h.symm
          · exact ih y (hs ▸ List.mem_cons_self y ys) h
        · exact ih comp (hs ▸ List.mem_cons_of_mem y h)

theorem splitChar_no_sep {c : Char} : ∀ {x : List Char}, c ∉ x → splitChar c x = [x] := by
  intro x
  induction x with
  | nil => intro h; rfl
  | cons a as ih =>
    intro h
    have ha : a ≠ c := fun hac => h (hac ▸ List.mem_cons_self a as)
    have has : c ∉ as := fun hmem => h (List.mem_cons_of_mem a hmem)
    rw [splitChar, ih has]
    simp only [if_neg ha]

theorem splitChar_append_sep {c : Char} :
    ∀ {x : List Char}, c ∉ x → ∀ (rest : List Char),
      splitChar c (x ++ c :: rest) = x :: splitChar c rest := by
  intro x
  induction x with
  | nil =>
    intro h rest
    rcases hs : splitChar c rest with - | ⟨y, ys⟩
    · exact absurd hs (splitChar_ne_nil c rest)
    · rw [List.nil_append, splitChar, hs]
      simp
  | cons a as ih =>
    intro h rest
    have ha : a ≠ c := fun hac => h (hac ▸ List.mem_cons_self a as)
    have has : c ∉ as := fun hmem => h (List.mem_cons_of_mem a hmem)
    rw [List.cons_append, splitChar, ih has rest]
    simp only [if_neg ha]

theorem splitChar_joinSep (c : Char) :
    ∀ (parts : List (List Char)), parts ≠ [] → (∀ p ∈ parts, c ∉ p) →
      splitChar c (joinSep [c] parts) = parts := by
  intro parts
  induction parts with
  | nil => intro h; exact absurd rfl h
  | cons p ps ih =>
    intro _ hmem
    cases ps with
    | nil =>
      rw [joinSep]
      exact splitChar_no_sep (hmem p (List.mem_cons_self p []))
    | cons q qs =>
      rw [joinSep]
      have hp : c ∉ p := hmem p (List.mem_cons_self p (q :: qs))
      have : p ++ [c] ++ joinSep [c] (q :: qs) = p ++ c :: joinSep [c] (q :: qs) := by
        simp
      rw [this, splitChar_append_sep hp,
        ih (List.cons_ne_nil q qs) (fun r hr => hmem r (List.mem_cons_of_mem p hr))]

theorem splitChar_replicate (c : Char) (rest : List Char) :
    ∀ n, splitChar c (List.replicate n c ++ rest) =
      List.replicate n [] ++ splitChar c rest := by
  intro n
  induction n with
  | zero => simp
  | succ n ih =>
    rcases hs : splitChar c (List.replicate n c ++ rest) with - | ⟨y, ys⟩
    · exact absurd hs (splitChar_ne_nil c _)
    · rw [List.replicate_succ, List.cons_append, splitChar, hs]
      simp only [if_pos rfl]
      rw [← hs, ih]
      simp [List.replicate_succ]

theorem joinSep_cons (sep : List Char) (q : List Char) (qs : List (List Char)) :
    ∃ t, joinSep sep (q :: qs) = q ++ t := by
  cases qs with
  | nil => exact ⟨[], by rw [joinSep]; simp⟩
  | cons r rs => exact ⟨sep ++ joinSep sep (r :: rs), by rw [joinSep]; simp⟩

/-! ## Helper lemmas: the component loop of normpath -/

theorem normCompsRev_nil (b : Bool) (acc : List (List Char)) :
    normCompsRev b acc [] = acc.reverse := rfl

theorem normCompsRev_cons (b : Bool) (acc : List (List Char)) (comp : List Char)
    (rest : List (List Char)) :
    normCompsRev b acc (comp :: rest) =
      if comp = [] ∨ comp = ['.'] then normCompsRev b acc rest
      else if comp ≠ ['.', '.'] ∨ (b = false ∧ acc = []) ∨ acc.head? = some ['.', '.'] then
        normCompsRev b (comp :: acc) rest
      else
        match acc with
        | [] => normCompsRev b [] rest
        | _ :: t => normCompsRev b t rest := rfl

theorem normCompsRev_mem (b : Bool) :
    ∀ (comps acc : List (List Char)) (p : List Char),
      p ∈ normCompsRev b acc comps → p ∈ acc ∨ p ∈ comps := by
  intro comps
  induction comps with
  | nil =>
    intro acc p hp
    rw [normCompsRev_nil] at hp
    exact Or.inl (List.mem_reverse.mp hp)
  | cons comp rest ih =>
    intro acc p hp
    rw [normCompsRev_cons] at hp
    by_cases h1 : comp = [] ∨ comp = ['.']
    · rw [if_pos h1] at hp
      rcases ih acc p hp with h | h
      · exact Or.inl h
      · exact Or.inr (List.mem_cons_of_mem _ h)
    · rw [if_neg h1] at hp
      by_cases h2 : comp ≠ ['.', '.'] ∨ (b = false ∧ acc = []) ∨ acc.head? = some ['.', '.']
      · rw [if_pos h2] at hp
        rcases ih _ p hp with h | h
        · rcases List.mem_cons.mp h with h | h
          · exact Or.inr (h ▸ List.mem_cons_self comp rest)
          · exact Or.inl h
        · exact Or.inr (List.mem_cons_of_mem _ h)
      · rw [if_neg h2] at hp
        cases acc with
        | nil =>
          rcases ih [] p hp with h | h
          · simp at h
          · exact Or.inr (List.mem_cons_of_mem _ h)
        | cons a t =>
          rcases ih t p hp with h | h
          · exact Or.inl (List.mem_cons_of_mem a h)
          · exact Or.inr (List.mem_cons_of_mem _ h)

theorem normCompsRev_entries (b : Bool) :
    ∀ (comps acc : List (List Char)),
      (∀ p ∈ acc, p ≠ [] ∧ p ≠ ['.']) →
      ∀ p ∈ normCompsRev b acc comps, p ≠ [] ∧ p ≠ ['.'] := by
  intro comps
  induction comps with
  | nil =>
    intro acc hacc p hp
    rw [normCompsRev_nil] at hp
    exact hacc p (List.mem_reverse.mp hp)
  | cons comp rest ih =>
    intro acc hacc p hp
    rw [normCompsRev_cons] at hp
    by_cases h1 : comp = [] ∨ comp = ['.']
    · rw [if_pos h1] at hp
      exact ih acc hacc p hp
    · rw [if_neg h1] at hp
      push_neg at h1
      by_cases h2 : comp ≠ ['.', '.'] ∨ (b = false ∧ acc = []) ∨ acc.head? = some ['.', '.']
      · rw [if_pos h2] at hp
        refine ih _ ?_ p hp
        intro q hq
        rcases List.mem_cons.mp hq with h | h
        · exact h ▸ h1
        · exact hacc q h
      · rw [if_neg h2] at hp
        cases acc with
        | nil => exact ih [] (by simp) p hp
        | cons a t => exact ih t (fun q hq => hacc q (List.mem_cons_of_mem a hq)) p hp

theorem normCompsRev_abs_no_dd :
    ∀ (comps acc : List (List Char)), ['.', '.'] ∉ acc →
      ['.', '.'] ∉ normCompsRev true acc comps := by
  intro comps
  induction comps with
  | nil =>
    intro acc hacc hmem
    rw [normCompsRev_nil] at hmem
    exact hacc (List.mem_reverse.mp hmem)
  | cons comp rest ih =>
    intro acc hacc hmem
    rw [normCompsRev_cons] at hmem
    by_cases h1 : comp = [] ∨ comp = ['.']
    · rw [if_pos h1] at hmem
      exact ih acc hacc hmem
    · rw [if_neg h1] at hmem
      by_cases h2 : comp ≠ ['.', '.'] ∨ ((true : Bool) = false ∧ acc = []) ∨ acc.head? = some ['.', '.']
      · rw [if_pos h2] at hmem
        have hcomp : comp ≠ ['.', '.'] := by
          rcases h2 with h | ⟨hf, -⟩ | hh
          · exact h
          · exact absurd hf (by simp)
          · exact absurd (List.mem_of_mem_head? (Option.mem_def.mpr hh)) hacc
        refine ih (comp :: acc) ?_ hmem
        intro hm
        rcases List.mem_cons.mp hm with h | h
        · exact hcomp h.symm
        · exact hacc h
      · rw [if_neg h2] at hmem
        cases acc with
        | nil => exact ih [] (by simp) hmem
        | cons a t => exact ih t (fun hm => hacc (List.mem_cons_of_mem a hm)) hmem

theorem normCompsRev_rel_structure :
    ∀ (comps acc : List (List Char)),
      (∃ l j, acc = l ++ List.replicate j ['.', '.'] ∧ ['.', '.'] ∉ l) →
      ∃ k rest, normCompsRev false acc comps = List.replicate k ['.', '.'] ++ rest ∧
        ['.', '.'] ∉ rest := by
  intro comps
  induction comps with
  | nil =>
    rintro acc ⟨l, j, rfl, hl⟩
    rw [normCompsRev_nil]
    refine ⟨j, l.reverse, ?_, by simpa using hl⟩
    rw [List.reverse_append, List.reverse_replicate]
  | cons comp rest ih =>
    rintro acc hacc
    rw [normCompsRev_cons]
    by_cases h1 : comp = [] ∨ comp = ['.']
    · rw [if_pos h1]
      exact ih acc hacc
    · rw [if_neg h1]
      by_cases h2 : comp ≠ ['.', '.'] ∨ ((false : Bool) = false ∧ acc = []) ∨ acc.head? = some ['.', '.']
      · rw [if_pos h2]
        apply ih
        obtain ⟨l, j, rfl, hl⟩ := hacc
        by_cases hc : comp = ['.', '.']
        · subst hc
          rcases h2 with h | ⟨-, hnil⟩ | hh
          · exact absurd rfl h
          · refine ⟨[], 1, ?_, by simp⟩
            rw [hnil]
            simp
          · have hl0 : l = [] := by
              cases l with
              | nil => rfl
              | cons a l' =>
                exfalso
                rw [List.cons_append, List.head?_cons, Option.some.injEq] at hh
                exact hl (hh ▸ List.mem_cons_self a l')
            subst hl0
            exact ⟨[], j + 1, by simp [List.replicate_succ], by simp⟩
        · refine ⟨comp :: l, j, by simp, ?_⟩
          intro hm
          rcases List.mem_cons.mp hm with h | h
          · exact hc h.symm
          · exact hl h
      · rw [if_neg h2]
        have hhead : acc.head? ≠ some ['.', '.'] := fun hh => h2 (Or.inr (Or.inr hh))
        have haccne : acc ≠ [] := fun h0 => h2 (Or.inr (Or.inl ⟨rfl, h0⟩))
        cases acc with
        | nil => exact absurd rfl haccne
        | cons a t =>
          apply ih
          obtain ⟨l, j, heq, hl⟩ := hacc
          have hane : a ≠ ['.', '.'] := fun h => hhead (by rw [List.head?_cons, h])
          cases l with
          | nil =>
            cases j with
            | zero => simp at heq
            | succ j' =>
              rw [List.nil_append, List.replicate_succ] at heq
              exact absurd (List.cons.injEq .. ▸ heq).1 hane
          | cons bb l' =>
            rw [List.cons_append] at heq
            simp only [List.cons.injEq] at heq
            exact ⟨l', j, heq.2, fun hm => hl (List.mem_cons_of_mem bb hm)⟩

theorem normCompsRev_skip_empty (b : Bool) (comps : List (List Char)) :
    ∀ (m : Nat) (acc : List (List Char)),
      normCompsRev b acc (List.replicate m [] ++ comps) = normCompsRev b acc comps := by
  intro m
  induction m with
  | zero => intro acc; rfl
  | succ m ih =>
    intro acc
    rw [List.replicate_succ, List.cons_append, normCompsRev_cons, if_pos (Or.inl rfl), ih]

theorem normCompsRev_id (b : Bool) :
    ∀ (comps acc : List (List Char)),
      (∀ p ∈ comps, p ≠ [] ∧ p ≠ ['.'] ∧ p ≠ ['.', '.']) →
      normCompsRev b acc comps = acc.reverse ++ comps := by
  intro comps
  induction comps with
  | nil =>
    intro acc h
    rw [normCompsRev_nil]
    simp
  | cons comp rest ih =>
    intro acc h
    obtain ⟨h1, h2, h3⟩ := h comp (List.mem_cons_self comp rest)
    have hno : ¬(comp = [] ∨ comp = ['.']) := by
      rintro (hc | hc)
      · exact h1 hc
      · exact h2 hc
    rw [normCompsRev_cons, if_neg hno, if_pos (Or.inl h3),
      ih _ (fun p hp => h p (List.mem_cons_of_mem comp hp))]
    simp

theorem normCompsRev_rel_dds (rest : List (List Char))
    (hrest : ∀ p ∈ rest, p ≠ [] ∧ p ≠ ['.'] ∧ p ≠ ['.', '.']) :
    ∀ (k j : Nat),
      normCompsRev false (List.replicate j ['.', '.']) (List.replicate k ['.', '.'] ++ rest)
        = List.replicate (j + k) ['.', '.'] ++ rest := by
  intro k
  induction k with
  | zero =>
    intro j
    rw [List.replicate_zero, List.nil_append, normCompsRev_id false rest _ hrest,
      List.reverse_replicate]
    simp
  | succ k ih =>
    intro j
    have hpush : (['.', '.'] : List Char) ≠ ['.', '.']
        ∨ ((false : Bool) = false ∧ List.replicate j (['.', '.'] : List Char) = [])
        ∨ (List.replicate j (['.', '.'] : List Char)).head? = some ['.', '.'] := by
      cases j with
      | zero => exact Or.inr (Or.inl ⟨rfl, rfl⟩)
      | succ j' => exact Or.inr (Or.inr (by rw [List.replicate_succ, List.head?_cons]))
    rw [List.replicate_succ, List.cons_append, normCompsRev_cons, if_neg (by decide),
      if_pos hpush]
    have hstep : (['.', '.'] :: List.replicate j (['.', '.'] : List Char))
        = List.replicate (j + 1) ['.', '.'] := by
      rw [List.replicate_succ]
    rw [hstep, ih (j + 1)]
    congr 2
    omega

/-! ## Helper lemmas: normpath output shape and idempotence -/

theorem normList_expand (cs : List Char) (hcs : cs ≠ []) :
    normList cs =
      (if List.replicate (initialSlashes cs) '/' ++
          joinSep ['/'] (normCompsRev (initialSlashes cs != 0) [] (splitChar '/' cs)) = []
       then ['.']
       else List.replicate (initialSlashes cs) '/' ++
          joinSep ['/'] (normCompsRev (initialSlashes cs != 0) [] (splitChar '/' cs))) := by
  rw [normList, if_neg hcs]

theorem initialSlashes_of_head_ne {cs : List Char} (h : cs.head? ≠ some '/') :
    initialSlashes cs = 0 := by
  cases cs with
  | nil => rfl
  | cons c t =>
    have hc : c ≠ '/' := fun hcc => h (by rw [List.head?_cons, hcc])
    simp [initialSlashes, List.take_succ_cons, hc]

theorem initialSlashes_pos (t : List Char) : 0 < initialSlashes ('/' :: t) := by
  unfold initialSlashes
  split_ifs with h1 h2 h3
  · omega
  · omega
  · omega
  · exact absurd (by simp [List.take_succ_cons]) h3

theorem initialSlashes_le_two (cs : List Char) : initialSlashes cs ≤ 2 := by
  unfold initialSlashes
  split_ifs <;> omega

theorem initialSlashes_one (c : Char) (t : List Char) (hc : c ≠ '/') :
    initialSlashes ('/' :: c :: t) = 1 := by
  simp [initialSlashes, List.take_succ_cons, hc]

theorem initialSlashes_two (c : Char) (t : List Char) (hc : c ≠ '/') :
    initialSlashes ('/' :: '/' :: c :: t) = 2 := by
  simp [initialSlashes, List.take_succ_cons, hc]

theorem joinSep_ne_nil {parts : List (List Char)} (hp : parts ≠ [])
    (hhead : ∀ p ∈ parts, p ≠ []) : joinSep ['/'] parts ≠ [] := by
  cases parts with
  | nil => exact absurd rfl hp
  | cons q qs =>
    obtain ⟨t, hjoin⟩ := joinSep_cons ['/'] q qs
    rw [hjoin]
    cases hq : q with
    | nil => exact absurd hq (hhead q (List.mem_cons_self q qs))
    | cons a as => simp

theorem normList_output (cs : List Char) (hcs : cs ≠ []) :
    normList cs = ['.'] ∨
    (∃ n comps, (n = 1 ∨ n = 2) ∧
      (∀ p ∈ comps, p ≠ [] ∧ p ≠ ['.'] ∧ '/' ∉ p ∧ p ≠ ['.', '.']) ∧
      normList cs = List.replicate n '/' ++ joinSep ['/'] comps) ∨
    (∃ k rest, (∀ p ∈ rest, p ≠ [] ∧ p ≠ ['.'] ∧ '/' ∉ p ∧ p ≠ ['.', '.']) ∧
      List.replicate k ['.', '.'] ++ rest ≠ [] ∧
      normList cs = joinSep ['/'] (List.replicate k ['.', '.'] ++ rest)) := by
  have hmem₀ : ∀ (b : Bool), ∀ p ∈ normCompsRev b [] (splitChar '/' cs),
      p ≠ [] ∧ p ≠ ['.'] ∧ '/' ∉ p := by
    intro b p hp
    have h1 := normCompsRev_entries b _ [] (by simp) p hp
    have h2 : p ∈ splitChar '/' cs := by
      rcases normCompsRev_mem b _ [] p hp with h | h
      · simp at h
      · exact h
    exact ⟨h1.1, h1.2, not_mem_splitChar '/' cs p h2⟩
  rw [normList_expand cs hcs]
  by_cases hz : initialSlashes cs = 0
  · rw [hz]
    have hb : ((0 : Nat) != 0) = false := rfl
    rw [hb, List.replicate_zero, List.nil_append]
    obtain ⟨k, rest, hkr, hdd⟩ := normCompsRev_rel_structure (splitChar '/' cs) []
      ⟨[], 0, rfl, by simp⟩
    rw [hkr]
    by_cases hc0 : List.replicate k (['.', '.'] : List Char) ++ rest = []
    · left
      rw [if_pos (by rw [hc0]; rfl)]
    · right; right
      refine ⟨k, rest, ?_, hc0, ?_⟩
      · intro p hp
        have hin : p ∈ List.replicate k (['.', '.'] : List Char) ++ rest :=
          List.mem_append_right _ hp
        rw [← hkr] at hin
        obtain ⟨hp1, hp2, hp3⟩ := hmem₀ false p hin
        exact ⟨hp1, hp2, hp3, fun hpdd => hdd (hpdd ▸ hp)⟩
      · rw [if_neg (joinSep_ne_nil hc0 (fun p hp => (hmem₀ false p (hkr ▸ hp)).1))]
  · have hpos : 0 < initialSlashes cs := Nat.pos_of_ne_zero hz
    have hle := initialSlashes_le_two cs
    have hb : (initialSlashes cs != 0) = true := by simp [hz]
    rw [hb]
    refine Or.inr (Or.inl ⟨initialSlashes cs, normCompsRev true [] (splitChar '/' cs),
      by omega, ?_, ?_⟩)
    · intro p hp
      obtain ⟨hp1, hp2, hp3⟩ := hmem₀ true p hp
      refine ⟨hp1, hp2, hp3, fun hpdd => ?_⟩
      exact normCompsRev_abs_no_dd (splitChar '/' cs) [] (by simp) (hpdd ▸ hp)
    · rw [if_neg ?_]
      intro h0
      rcases List.append_eq_nil.mp h0 with ⟨hrep, -⟩
      rw [List.replicate_eq_nil_iff] at hrep
      omega

theorem normList_fix_abs (n : Nat) (hn : n = 1 ∨ n = 2) (comps : List (List Char))
    (hent : ∀ p ∈ comps, p ≠ [] ∧ p ≠ ['.'] ∧ '/' ∉ p ∧ p ≠ ['.', '.']) :
    normList (List.replicate n '/' ++ joinSep ['/'] comps)
      = List.replicate n '/' ++ joinSep ['/'] comps := by
  cases comps with
  | nil =>
    rcases hn with rfl | rfl <;> rfl
  | cons q qs =>
    obtain ⟨t, hjoin⟩ := joinSep_cons ['/'] q qs
    obtain ⟨hq1, hq2, hq3, hq4⟩ := hent q (List.mem_cons_self q qs)
    cases q with
    | nil => exact absurd rfl hq1
    | cons qc q' =>
      have hqc : qc ≠ '/' := fun h => hq3 (h ▸ List.mem_cons_self qc q')
      have hshape : List.replicate n '/' ++ joinSep ['/'] ((qc :: q') :: qs)
          = List.replicate n '/' ++ (qc :: (q' ++ t)) := by
        rw [hjoin]
        simp
      have hslash : initialSlashes (List.replicate n '/' ++ joinSep ['/'] ((qc :: q') :: qs)) = n := by
        rw [hshape]
        rcases hn with rfl | rfl
        · exact initialSlashes_one qc (q' ++ t) hqc
        · exact initialSlashes_two qc (q' ++ t) hqc
      have hne0 : List.replicate n '/' ++ joinSep ['/'] ((qc :: q') :: qs) ≠ [] := by
        intro h0
        rcases List.append_eq_nil.mp h0 with ⟨hrep, -⟩
        rw [List.replicate_eq_nil_iff] at hrep
        omega
      have hbt : (n != 0) = true := by
        rcases hn with rfl | rfl <;> rfl
      have hsplit : splitChar '/' (List.replicate n '/' ++ joinSep ['/'] ((qc :: q') :: qs))
          = List.replicate n [] ++ ((qc :: q') :: qs) := by
        rw [hjoin]
        have : (qc :: q' ++ t : List Char) = (qc :: q') ++ t := by simp
        rw [this, ← hjoin, splitChar_replicate, splitChar_joinSep '/' _ (List.cons_ne_nil _ _)
          (fun p hp => (hent p hp).2.2.1)]
      rw [normList_expand _ hne0, hslash, hbt, hsplit, normCompsRev_skip_empty,
        normCompsRev_id true _ []
          (fun p hp => ⟨(hent p hp).1, (hent p hp).2.1, (hent p hp).2.2.2⟩),
        List.reverse_nil, List.nil_append, if_neg hne0]

theorem normList_fix_rel (k : Nat) (rest : List (List Char))
    (hent : ∀ p ∈ rest, p ≠ [] ∧ p ≠ ['.'] ∧ '/' ∉ p ∧ p ≠ ['.', '.'])
    (hne : List.replicate k ['.', '.'] ++ rest ≠ []) :
    normList (joinSep ['/'] (List.replicate k ['.', '.'] ++ rest))
      = joinSep ['/'] (List.replicate k ['.', '.'] ++ rest) := by
  have hcompsent : ∀ p ∈ List.replicate k (['.', '.'] : List Char) ++ rest,
      p ≠ [] ∧ p ≠ ['.'] ∧ '/' ∉ p ∧ p ≠ ['.', '.'] ∨
        (p = ['.', '.'] ∧ p ≠ [] ∧ p ≠ ['.'] ∧ '/' ∉ p) := by
    intro p hp
    rcases List.mem_append.mp hp with h | h
    · have := List.eq_of_mem_replicate h
      subst this
      exact Or.inr ⟨rfl, by simp, by simp, by decide⟩
    · exact Or.inl (hent p h)
  have hgood : ∀ p ∈ List.replicate k (['.', '.'] : List Char) ++ rest,
      p ≠ [] ∧ p ≠ ['.'] ∧ '/' ∉ p := by
    intro p hp
    rcases hcompsent p hp with h | h
    · exact ⟨h.1, h.2.1, h.2.2.1⟩
    · exact h.2
  have hne0 : joinSep ['/'] (List.replicate k (['.', '.'] : List Char) ++ rest) ≠ [] :=
    joinSep_ne_nil hne (fun p hp => (hgood p hp).1)
  have hhead : (joinSep ['/'] (List.replicate k (['.', '.'] : List Char) ++ rest)).head?
      ≠ some '/' := by
    rcases hlist : List.replicate k (['.', '.'] : List Char) ++ rest with - | ⟨q, qs⟩
    · exact absurd hlist hne
    · obtain ⟨t, hjoin⟩ := joinSep_cons ['/'] q qs
      rw [hjoin]
      obtain ⟨hq1, -, hq3⟩ := hgood q (by rw [hlist]; exact List.mem_cons_self q qs)
      cases q with
      | nil => exact absurd rfl hq1
      | cons qc q' =>
        have hqc : qc ≠ '/' := fun h => hq3 (h ▸ List.mem_cons_self qc q')
        rw [List.cons_append, List.head?_cons]
        intro h0
        exact hqc (Option.some.inj h0)
  have hsplit : splitChar '/' (joinSep ['/'] (List.replicate k (['.', '.'] : List Char) ++ rest))
      = List.replicate k ['.', '.'] ++ rest :=
    splitChar_joinSep '/' _ hne (fun p hp => (hgood p hp).2.2)
  have hdds := normCompsRev_rel_dds rest
    (fun p hp => ⟨(hent p hp).1, (hent p hp).2.1, (hent p hp).2.2.2⟩) k 0
  simp only [List.replicate_zero, Nat.zero_add] at hdds
  rw [normList_expand _ hne0, initialSlashes_of_head_ne hhead]
  have hb : ((0 : Nat) != 0) = false := rfl
  rw [hb, List.replicate_zero, List.nil_append, hsplit, hdds, if_neg hne0]

theorem normList_idem (cs : List Char) : normList (normList cs) = normList cs := by
  by_cases hcs : cs = []
  · subst hcs
    rfl
  · rcases normList_output cs hcs with h | ⟨n, comps, hn, hent, h⟩ | ⟨k, rest, hent, hrne, h⟩
    · rw [h]
      rfl
    · rw [h]
      exact normList_fix_abs n hn comps hent
    · rw [h]
      exact normList_fix_rel k rest hent hrne

theorem normList_ne_nil (cs : List Char) : normList cs ≠ [] := by
  by_cases hcs : cs = []
  · subst hcs
    simp [normList]
  · rw [normList_expand cs hcs]
    split
    · simp
    · rename_i hres
      exact hres

theorem normList_head_slash (t0 : List Char) :
    ∃ u, normList ('/' :: t0) = '/' :: u := by
  have hpos := initialSlashes_pos t0
  rw [normList_expand _ (List.cons_ne_nil '/' t0)]
  rcases hn : initialSlashes ('/' :: t0) with - | m
  · omega
  · rw [List.replicate_succ, List.cons_append, if_neg (List.cons_ne_nil _ _)]
    exact ⟨_, rfl⟩

/-! ## Helper lemmas: absolute paths at the String level -/

theorem toList_append (a b : String) : (a ++ b).toList = a.toList ++ b.toList := by
  cases a
  cases b
  rfl

theorem pyStartswith_slash (p : String) :
    pyStartswith p "/" = true ↔ ∃ t, p.toList = '/' :: t := by
  show (['/'] : List Char).isPrefixOf p.toList = true ↔ _
  cases hp : p.toList with
  | nil => simp [List.isPrefixOf]
  | cons c t =>
    simp only [List.isPrefixOf, Bool.and_eq_true, List.isPrefixOf_nil_left, and_true,
      beq_iff_eq]
    constructor
    · rintro rfl
      exact ⟨t, rfl⟩
    · rintro ⟨t', ht'⟩
      exact (List.cons.injEq .. ▸ ht').1.symm

theorem pyNormpath_slash {s : String} {t : List Char} (h : s.toList = '/' :: t) :
    ∃ u, (pyNormpath s).toList = '/' :: u := by
  unfold pyNormpath
  rw [toList_mk, h]
  exact normList_head_slash t

theorem pyAbspath_toList_slash (cwd p : String) (hcwd : pyStartswith cwd "/" = true) :
    ∃ t, (pyAbspath cwd p).toList = '/' :: t := by
  obtain ⟨ct, hct⟩ := (pyStartswith_slash cwd).mp hcwd
  unfold pyAbspath
  by_cases hp : pyStartswith p "/" = true
  · rw [if_pos hp]
    obtain ⟨pt, hpt⟩ := (pyStartswith_slash p).mp hp
    exact pyNormpath_slash hpt
  · rw [if_neg hp]
    unfold pyJoin
    rw [if_neg hp]
    by_cases hmid : cwd = "" ∨ cwd.toList.getLast? = some '/'
    · rw [if_pos hmid]
      exact pyNormpath_slash (by rw [toList_append, hct, List.cons_append])
    · rw [if_neg hmid]
      exact pyNormpath_slash (by rw [toList_append, toList_append, hct, List.cons_append,
        List.cons_append])

theorem pyNormpath_idem (s : String) : pyNormpath (pyNormpath s) = pyNormpath s := by
  unfold pyNormpath
  rw [toList_mk, normList_idem]

theorem pyAbspath_fix (cwd p : String) (hcwd : pyStartswith cwd "/" = true) :
    pyAbspath cwd (pyAbspath cwd p) = pyAbspath cwd p := by
  have habs : pyStartswith (pyAbspath cwd p) "/" = true := by
    obtain ⟨t, ht⟩ := pyAbspath_toList_slash cwd p hcwd
    exact (pyStartswith_slash _).mpr ⟨t, ht⟩
  conv_lhs => rw [pyAbspath, if_pos habs]
  rw [show pyAbspath cwd p = pyNormpath (if pyStartswith p "/" then p else pyJoin cwd p)
    from rfl, pyNormpath_idem]

theorem pyAbspath_ne_empty (cwd p : String) : pyAbspath cwd p ≠ "" := by
  unfold pyAbspath pyNormpath
  intro h
  have h2 := congrArg String.toList h
  rw [toList_mk] at h2
  exact normList_ne_nil _ (by simpa using h2)

/-! ## Claim C6: round trip through the tagged JSON document -/

/-- C6: serializing a constructed SourceSet to its tagged document and
applying the JSON-merge strategy to that single document yields a
SourceSet with the same root and the same all_files (merge does not
compute statistics). -/
theorem roundtrip_serialize_merge (tool tool2 : SlocTool) (cwd root : String)
    (files : List String) (slocFlag : Bool) (s : Source)
    (hcwd : pyStartswith cwd "/" = true)
    (h : Source.init tool cwd root files slocFlag = .ok s) :
    ∃ s', SourceFromJson tool2 cwd [Source.toDoc s] false = .ok s'
      ∧ s'.root = s.root ∧ s'.all_files = s.all_files := by
  obtain ⟨hroot, hall, -⟩ := init_ok_fields h
  have hnodup : s.all_files.Nodup := by rw [hall]; exact pySortedSet_nodup _
  have hsorted : s.all_files.Sorted (fun a b => pyStrLe a b = true) := by
    rw [hall]; exact pySortedSet_sorted _
  have hfix : ∀ p ∈ s.all_files, pyAbspath cwd p = p := by
    intro p hp
    rw [hall] at hp
    obtain ⟨f, -, rfl⟩ := List.mem_map.mp (mem_pySortedSet.mp hp)
    exact pyAbspath_fix cwd f hcwd
  have hmerge : mergeSources [Source.toDoc s] = .ok (s.root, s.all_files) := by
    have h1 : (([Source.toDoc s]).map SourceDoc.root).dedup = [s.root] := by
      simp [Source.toDoc]
    have h2 : (([Source.toDoc s]).map SourceDoc.all_files).flatten.dedup = s.all_files := by
      simp only [List.map_cons, List.map_nil, List.flatten_cons, List.flatten_nil,
        List.append_nil]
      exact List.dedup_eq_self.mpr hnodup
    unfold mergeSources
    rw [h1, h2, if_neg (by simp)]
    rfl
  rw [SourceFromJson, if_neg (by simp), hmerge]
  refine ⟨_, rfl, ?_, ?_⟩
  · show (if s.root = "" then "" else pyAbspath cwd s.root) = s.root
    by_cases hr : s.root = ""
    · rw [if_pos hr, hr]
    · rw [if_neg hr]
      by_cases hr0 : root = ""
      · rw [hr0] at hroot
        simp at hroot
        exact absurd hroot hr
      · rw [hroot, if_neg hr0] at *
        exact pyAbspath_fix cwd root hcwd
  · show pySortedSet (s.all_files.map (pyAbspath cwd)) = s.all_files
    have hmap : s.all_files.map (pyAbspath cwd) = s.all_files := by
      conv_rhs => rw [← List.map_id s.all_files]
      exact List.map_congr_left hfix
    rw [hmap, pySortedSet_eq_self hsorted hnodup]

/-! ## Claim C9: empty root keeps every file -/

/-- C9: with an empty (or absent) root and a non-empty file list, files is
not empty: every member of all_files passes the empty-string prefix test,
so files is all_files with the first character (the leading separator, all
members being absolute) of each member removed and then normalized. -/
theorem empty_root_files_all_included (tool : SlocTool) (cwd : String)
    (files : List String) (slocFlag : Bool) (s : Source)
    (hcwd : pyStartswith cwd "/" = true) (hne : files ≠ [])
    (h : Source.init tool cwd "" files slocFlag = .ok s) :
    s.files ≠ []
    ∧ (∀ p ∈ s.all_files, pyStartswith p "" = true)
    ∧ s.files = s.all_files.map (fun p => pyNormpath (pyDrop 1 p))
    ∧ (∀ p ∈ s.all_files, pyStartswith p "/" = true) := by
  obtain ⟨hroot, hall, hfiles⟩ := init_ok_fields h
  rw [if_pos rfl] at hroot
  have hempty : ∀ p : String, pyStartswith p "" = true := by
    intro p
    show (([] : List Char)).isPrefixOf p.toList = true
    cases p.toList <;> rfl
  have hstart : ∀ p ∈ s.all_files, pyStartswith p s.root = true := by
    intro p _
    rw [hroot]
    exact hempty p
  have hfilter : s.all_files.filter (fun p => pyStartswith p s.root) = s.all_files :=
    List.filter_eq_self.mpr hstart
  have hmap : s.files = s.all_files.map (fun p => pyNormpath (pyDrop 1 p)) := by
    rw [hfiles, hfilter, hroot]
    rfl
  refine ⟨?_, fun p _ => hempty p, hmap, ?_⟩
  · have hmem : ∃ p, p ∈ s.all_files := by
      cases files with
      | nil => exact absurd rfl hne
      | cons f fs =>
        refine ⟨pyAbspath cwd f, ?_⟩
        rw [hall]
        exact mem_pySortedSet.mpr (List.mem_map_of_mem _ (List.mem_cons_self f fs))
    obtain ⟨p, hp⟩ := hmem
    rw [hmap]
    intro h0
    rw [List.map_eq_nil_iff] at h0
    rw [h0] at hp
    simp at hp
  · intro p hp
    rw [hall] at hp
    obtain ⟨f, -, rfl⟩ := List.mem_map.mp (mem_pySortedSet.mp hp)
    obtain ⟨t, ht⟩ := pyAbspath_toList_slash cwd f hcwd
    exact (pyStartswith_slash _).mpr ⟨t, ht⟩

/-! ## Claim C1: construction of the two file lists -/

/-- Formalization of a path lying under a root directory, as claim C1
words it: the path consists of the root, a separator, and a remainder. -/
def liesUnder (root p : String) : Bool :=
  (root.toList ++ ['/']).isPrefixOf p.toList

/-- The files field that claim C1 predicts: exactly the members of
all_files that lie under the root, each rewritten relative to the root. -/
def filesPerClaimC1 (root : String) (allFiles : List String) : List String :=
  (allFiles.filter (fun p => liesUnder root p)).map
    (fun p => pyNormpath (pyDrop (root.length + 1) p))

/-- A degenerate tool oracle for concrete evaluations. -/
def tool0 : SlocTool := fun _ _ => .fileNotFoundError

instance {ε α : Type} [DecidableEq ε] [DecidableEq α] : DecidableEq (Except ε α) := fun a b =>
  match a, b with
  | .error e, .error f =>
    if h : e = f then .isTrue (by rw [h]) else .isFalse (fun hc => h (Except.error.inj hc))
  | .ok x, .ok y =>
    if h : x = y then .isTrue (by rw [h]) else .isFalse (fun hc => h (Except.ok.inj hc))
  | .error e, .ok y => .isFalse (fun hc => Except.noConfusion hc)
  | .ok x, .error f => .isFalse (fun hc => Except.noConfusion hc)

/-- C1 (amended): all_files is the deduplicated absolute-normalized set of
the input files; files consists of exactly the members of all_files having
the normalized root as a string prefix, each with the first length(root)+1
characters dropped and then normalized; members without that prefix are
excluded from files but remain in all_files. -/
theorem construction_fields_amended (tool : SlocTool) (cwd root : String)
    (files : List String) (slocFlag : Bool) (s : Source)
    (h : Source.init tool cwd root files slocFlag = .ok s) :
    s.root = (if root = "" then "" else pyAbspath cwd root)
    ∧ s.all_files.Nodup
    ∧ (∀ p, p ∈ s.all_files ↔ ∃ f ∈ files, pyAbspath cwd f = p)
    ∧ s.files = (s.all_files.filter (fun p => pyStartswith p s.root)).map
        (fun p => pyNormpath (pyDrop (s.root.length + 1) p)) := by
  obtain ⟨hroot, hall, hfiles⟩ := init_ok_fields h
  refine ⟨hroot, by rw [hall]; exact pySortedSet_nodup _, ?_, hfiles⟩
  intro p
  rw [hall, mem_pySortedSet, List.mem_map]

/-- C1 counterexample: with root /a and the single file /ab/x.c, the path
does not lie under the root, yet the code places the garbled name /x.c in
files (the string-prefix test succeeds), so files differs from the list the
claim predicts (the empty list). -/
theorem construction_files_claim_counterexample :
    Source.init tool0 "/" "/a" ["/ab/x.c"] false
      = .ok ⟨"/a", ["/x.c"], ["/ab/x.c"], none⟩
    ∧ liesUnder "/a" "/ab/x.c" = false
    ∧ filesPerClaimC1 "/a" ["/ab/x.c"] = []
    ∧ (["/x.c"] : List String) ≠ filesPerClaimC1 "/a" ["/ab/x.c"] := by
  decide

/-! ## Claim C2: linemarker extraction -/

/-- The extraction pipeline exactly as claim C2 states it: keep the lines
that begin with hash and space (no stripping), extract the quoted
filename of each, discard the synthetic markers, resolve against the
build directory, normalize, deduplicate and sort. -/
def extractPerClaimC2 (output : List String) (build : String) : Option (List String) :=
  ((output.filter (fun line => pyStartswith line "# ")).mapM findQuoted).map
    (fun filenames => pySortedSet
      ((filenames.filter (fun name => !(syntheticMarkers.contains (pyBasename name)))).map
        (fun name => pyNormpath (pyJoin build name))))

/-- The same pipeline with the single amendment that matches the code: the
hash-space test applies to the whitespace-stripped line. -/
def extractPerClaimC2Amended (output : List String) (build : String) : Option (List String) :=
  ((output.filter (fun line => pyStartswith (pyStrip line) "# ")).mapM findQuoted).map
    (fun filenames => pySortedSet
      ((filenames.filter (fun name => !(syntheticMarkers.contains (pyBasename name)))).map
        (fun name => pyNormpath (pyJoin build name))))

/-- C2 (amended): the extraction keeps exactly the lines whose
whitespace-stripped form begins with hash and space, extracts the quoted
filename from each kept line, discards filenames whose base name is one of
the three synthetic markers, resolves non-absolute survivors against the
build directory, normalizes, and returns the deduplicated sorted set. -/
theorem extract_source_filenames_amended (output : List String) (build : String) :
    extract_source_filenames output build = extractPerClaimC2Amended output build := by
  simp only [extract_source_filenames, extractPerClaimC2Amended]
  cases hm : (output.filter (fun line => pyStartswith (pyStrip line) "# ")).mapM findQuoted with
  | none => rfl
  | some filenames =>
    simp [List.map_map]
    rfl

/-- C2 counterexample: a linemarker line preceded by a tab does not begin
with hash-space, yet the code keeps it because it strips the line first;
the claim as stated predicts the empty extraction for this input. -/
theorem extract_linemarker_strip_counterexample :
    extract_source_filenames ["\t# 1 \"/src/foo.c\" 1"] "/b" = some ["/src/foo.c"]
    ∧ pyStartswith "\t# 1 \"/src/foo.c\" 1" "# " = false
    ∧ extractPerClaimC2 ["\t# 1 \"/src/foo.c\" 1"] "/b" = some []
    ∧ extract_source_filenames ["\t# 1 \"/src/foo.c\" 1"] "/b"
        ≠ extractPerClaimC2 ["\t# 1 \"/src/foo.c\" 1"] "/b" := by
  decide

/-! ## Witnesses: the claim theorems applied at concrete inputs -/

theorem all_files_sorted_invariant_witness :
    (["/r/a.c", "/r/b.c"] : List String).Nodup
    ∧ (["/r/a.c", "/r/b.c"] : List String).Sorted (fun a b => pyStrLe a b = true)
    ∧ (["/r/a.c", "/r/b.c"] : List String).Sorted (fun a b => pyStrLe a b = true ∧ a ≠ b)
    ∧ ((["/r/a.c", "/r/b.c"] : List String).filter
        (fun p => pyStartswith p "/r")).Sublist ["/r/a.c", "/r/b.c"]
    ∧ (["a.c", "b.c"] : List String)
        = ((["/r/a.c", "/r/b.c"] : List String).filter (fun p => pyStartswith p "/r")).map
            (fun p => pyNormpath (pyDrop (("/r" : String).length + 1) p)) :=
  @all_files_sorted_invariant tool0 "/" "/r" ["/r/b.c", "/r/a.c"] false
    ⟨"/r", ["a.c", "b.c"], ["/r/a.c", "/r/b.c"], none⟩ (by decide)

theorem construction_fields_amended_witness :
    (("/r" : String) = (if ("/r" : String) = "" then "" else pyAbspath "/" "/r"))
    ∧ (["/r/a.c"] : List String).Nodup
    ∧ (∀ p, p ∈ (["/r/a.c"] : List String) ↔ ∃ f ∈ (["/r/a.c"] : List String), pyAbspath "/" f = p)
    ∧ (["a.c"] : List String)
        = ((["/r/a.c"] : List String).filter (fun p => pyStartswith p "/r")).map
            (fun p => pyNormpath (pyDrop (("/r" : String).length + 1) p)) :=
  construction_fields_amended tool0 "/" "/r" ["/r/a.c"] false
    ⟨"/r", ["a.c"], ["/r/a.c"], none⟩ (by decide)

theorem sloc_failure_degrades_witness :
    (∃ s, Source.init tool0 "/" "/r" ["a.c"] true = .ok s ∧ s.lines_of_code = none)
    ∧ (∀ fs r, fs ≠ [] → Source.sloc tool0 fs r = .ok none) :=
  sloc_failure_degrades_gracefully tool0 "/" "/r" ["a.c"] .fileNotFoundError
    (Or.inl rfl) (fun _ _ => rfl)

/-- Two parsed source documents with conflicting roots, for the merge
witness. -/
def docsW : List SourceDoc :=
  [⟨"/a", [], ["/a/x.c"], none⟩, ⟨"/b", [], ["/b/y.c"], none⟩]

theorem merge_roots_behaviour_witness :
    (1 < ((docsW.map SourceDoc.root).dedup).length →
      ∃ msg, mergeSources docsW = .error (.userWarning msg) ∧
        ∀ r ∈ docsW.map SourceDoc.root,
          ∃ u v, u ++ (squote :: (r.toList ++ [squote])) ++ v = msg.toList)
    ∧ (∀ r0, (docsW.map SourceDoc.root).dedup = [r0] →
      ∃ u, mergeSources docsW = .ok (r0, u) ∧ u.Nodup ∧
        ∀ x, (x ∈ u ↔ ∃ d ∈ docsW, x ∈ d.all_files)) :=
  merge_roots_behaviour docsW (by decide)

/-- A tool oracle that always succeeds with a fixed summary, for the
batching witness. -/
def toolSum : SlocTool := fun _ _ => .summary [("total", 3)]

theorem sloc_batches_and_sums_witness :
    (∃ m, Source.sloc toolSum ["a.c"] "/r" = .ok (some m) ∧
      ∀ k, dictGet m k = ((chunkList ["a.c"]).map (fun c => entrySum [("total", 3)] k)).sum)
    ∧ (chunkList ["a.c"]).flatten = ["a.c"]
    ∧ (∀ c ∈ chunkList ["a.c"], c.length ≤ 100)
    ∧ (100 < (["a.c"] : List String).length → 2 ≤ (chunkList ["a.c"]).length) :=
  sloc_batches_and_sums toolSum "/r" ["a.c"] (fun _ => [("total", 3)]) (fun _ => rfl)

theorem roundtrip_serialize_merge_witness :
    ∃ s', SourceFromJson tool0 "/" [Source.toDoc ⟨"/r", ["a.c"], ["/r/a.c"], none⟩] false = .ok s'
      ∧ s'.root = "/r" ∧ s'.all_files = ["/r/a.c"] :=
  roundtrip_serialize_merge tool0 tool0 "/" "/r" ["/r/a.c"] false
    ⟨"/r", ["a.c"], ["/r/a.c"], none⟩ (by decide) (by decide)

theorem sloc_all_or_nothing_witness :
    Source.sloc tool0 ["a.c"] "/r" = .ok none :=
  sloc_all_or_nothing tool0 "/r" ["a.c"] [] ["a.c"] []
    (by rw [chunkList_cons, show (["a.c"] : List String).drop 100 = [] from rfl, chunkList_nil]
        rfl)
    (fun c hc => absurd hc (List.not_mem_nil c))
    (Or.inl rfl)

theorem empty_root_files_all_included_witness :
    (["a.c"] : List String) ≠ []
    ∧ (∀ p ∈ (["/a.c"] : List String), pyStartswith p "" = true)
    ∧ (["a.c"] : List String) = (["/a.c"] : List String).map (fun p => pyNormpath (pyDrop 1 p))
    ∧ (∀ p ∈ (["/a.c"] : List String), pyStartswith p "/" = true) :=
  empty_root_files_all_included tool0 "/" ["/a.c"] false ⟨"", ["a.c"], ["/a.c"], none⟩
    (by decide) (by decide) (by decide)

end Sourcet
